import Mathlib

/-
Verification of the extractive summarization engine in
src/automatic_summarizer.py (TextRank-style summarizer).

Embedding conventions:
- Python floats are modelled by exact real numbers (scores) and exact
  rationals (the compression ratio, which feeds integer truncation).
- Sentence and word tokenization (nltk.tokenize) and the Unicode
  predicate str.isalnum are external capabilities of the engine; they
  appear as function parameters.
- scipy.spatial.distance.cosine is modelled twice: spatialCosineDist
  returns an Option, with none standing for the NaN float that scipy
  produces when a vector has zero norm (0/0); cosineDist is the total
  real-valued formula used inside textrank, and agrees with the some
  branch whenever both norms are nonzero (spatialCosineDist_eq_some).
- Python sorted(...) is a stable sort; it is modelled by a stable
  insertion sort (sortBy), which has the same input-output behaviour
  as any stable sort for total preorder keys.
-/

/-- Empty string constant, used as the (never hit) default of list lookups. -/
def emptyString : String := ""

/-- Dot product of two term-frequency vectors, as in numpy dot on
integer count vectors. -/
def dot (u v : List ℕ) : ℕ := (List.zipWith (· * ·) u v).sum

/-- Model of scipy.spatial.distance.cosine (line 76 of the source).
scipy computes 1 - uv / sqrt(uu * vv); when either vector has zero
norm the division is 0/0, which yields a NaN float (with a runtime
warning, not an exception). none models that NaN. -/
noncomputable def spatialCosineDist (u v : List ℕ) : Option ℝ :=
  if dot u u * dot v v = 0 then none
  else some (1 - (dot u v : ℝ) / Real.sqrt ((dot u u : ℝ) * (dot v v : ℝ)))

/-- Total real-valued cosine distance used inside the textrank embedding.
On zero-norm vectors Lean division by zero gives a junk value; all
theorems about score values therefore assume nonzero norms, where this
definition coincides with the defined branch of spatialCosineDist. -/
noncomputable def cosineDist (u v : List ℕ) : ℝ :=
  1 - (dot u v : ℝ) / Real.sqrt ((dot u u : ℝ) * (dot v v : ℝ))

/-- Inner loop of vectorize_sentences (lines 51-55 of the source): walk
the vocabulary and the vector in lockstep and increment the slot of the
first vocabulary entry equal to the word (the loop breaks after the
first hit; words outside the vocabulary leave the vector unchanged). -/
def tally (w : String) : List String → List ℕ → List ℕ
  | [], cs => cs
  | _ :: _, [] => []
  | u :: us, c :: cs => if w = u then (c + 1) :: cs else c :: tally w us cs

/-- Vector of one sentence (lines 44-56): start from the all-zero vector
over the vocabulary and tally each alphanumeric token of the sentence. -/
def sentence_vector (vocab : List String) (ws : List String) : List ℕ :=
  ws.foldl (fun vec w => tally w vocab vec) (vocab.map fun _ => 0)

/-- vectorize_sentences (lines 39-58): each sentence is re-tokenized by
the external word tokenizer, filtered to alphanumeric tokens, and
tallied against the vocabulary. -/
def vectorize_sentences (wordTok : String → List String) (isal : String → Bool)
    (sentences : List String) (vocab : List String) : List (List ℕ) :=
  sentences.map fun s => sentence_vector vocab ((wordTok s).filter isal)

/-- identify_unique_words (lines 32-36) computes list(set(words)) for the
alphanumeric tokens of the whole text. Python set iteration order is
unspecified (hash randomization), so the engine is modelled as receiving
some list satisfying this predicate: duplicate-free and holding exactly
the alphanumeric tokens of the text. -/
def isUniqueWordList (wordTok : String → List String) (isal : String → Bool)
    (text : String) (vocab : List String) : Prop :=
  vocab.Nodup ∧ vocab.toFinset = ((wordTok text).filter isal).toFinset

/-- Stable insertion step: x is placed before the first element y with
le x y. Used to model Python sorted, which is stable. -/
def insertBy {α : Type} (le : α → α → Prop) [DecidableRel le] (x : α) : List α → List α
  | [] => [x]
  | y :: l => if le x y then x :: y :: l else y :: insertBy le x l

/-- Stable insertion sort; for a total preorder le this has the same
input-output behaviour as Python sorted with the matching comparison. -/
def sortBy {α : Type} (le : α → α → Prop) [DecidableRel le] : List α → List α
  | [] => []
  | x :: l => insertBy le x (sortBy le l)

/-- Comparison used for sorted(..., key=lambda l: l[1], reverse=True)
(line 81): an earlier element a stays before a later element b exactly
when the score of b does not exceed the score of a (stable descending). -/
def scoreGe (a b : ℕ × ℝ) : Prop := b.2 ≤ a.2

/-- Comparison used for sorted(..., key=lambda l: l[0]) (line 88):
stable ascending by original sentence index. -/
def idxLe (a b : ℕ × ℝ) : Prop := a.1 ≤ b.1

/-- Strict ascending-index relation between ranked entries. -/
def idxLt (a b : ℕ × ℝ) : Prop := a.1 < b.1

/-- Ranking order demanded by the spec: centrality strictly descending,
ties broken by ascending original index. -/
def rankRel (a b : ℕ × ℝ) : Prop := b.2 < a.2 ∨ (a.2 = b.2 ∧ a.1 < b.1)

noncomputable instance scoreGeDec : DecidableRel scoreGe :=
  fun a b => Real.decidableLE b.2 a.2

instance idxLeDec : DecidableRel idxLe :=
  fun a b => Nat.decLe a.1 b.1

/-- Accumulation loop of textrank for row i (lines 71-77): add the
similarity 1 - cosine(v i, v j) for every j different from i. -/
noncomputable def centrality_raw (vecs : List (List ℕ)) (i : ℕ) : ℝ :=
  (List.range vecs.length).foldl
    (fun acc j =>
      if i = j then acc
      else acc + (1 - cosineDist (vecs.getD i []) (vecs.getD j []))) 0

/-- The list [[i, score i] for i in range n] after the accumulation and
the division by n - 1 (lines 67-79). The subtraction is integer-like:
it is performed in ℝ after casting, as Python computes len - 1 in ℤ. -/
noncomputable def average_similarities (vecs : List (List ℕ)) : List (ℕ × ℝ) :=
  (List.range vecs.length).map fun i =>
    (i, centrality_raw vecs i / ((vecs.length : ℝ) - 1))

/-- textrank (lines 65-83): rank the average similarities descending by
score with Python stable sort. -/
noncomputable def textrank (vecs : List (List ℕ)) : List (ℕ × ℝ) :=
  sortBy scoreGe (average_similarities vecs)

/-- Python int() applied to a real value truncates toward zero. -/
def pyInt (q : ℚ) : ℤ := if q < 0 then ⌈q⌉ else ⌊q⌋

/-- Selection step of generate_summary (line 88): slice the first
int(len * (1 - cr)) ranked entries and re-sort them ascending by
original index. -/
noncomputable def sentences_to_keep (ranked : List (ℕ × ℝ)) (cr : ℚ) : List (ℕ × ℝ) :=
  sortBy idxLe (ranked.take (pyInt ((ranked.length : ℚ) * (1 - cr))).toNat)

/-- Model of Python str.strip(): drop whitespace from both ends.
Implemented over the character list so that it evaluates by kernel
reduction (String.trim does not). -/
def pyStrip (s : String) : String :=
  String.mk (((s.data.dropWhile Char.isWhitespace).reverse.dropWhile Char.isWhitespace).reverse)

/-- generate_summary (lines 86-92): concatenate the kept sentences in
index order, each followed by one space, then strip the result. -/
noncomputable def generate_summary (sentences : List String)
    (ranked : List (ℕ × ℝ)) (cr : ℚ) : String :=
  pyStrip ((sentences_to_keep ranked cr).foldl
    (fun acc p => acc ++ sentences.getD p.1 emptyString ++ " ") emptyString)

/-- main (lines 116-140) restricted to the computational engine: the
compression-ratio range check of validate_input (lines 100-103), the
empty-text refusal (lines 124-126), the sentence-count refusal (lines
129-131), then vectorization, ranking and assembly. File-path handling
and printing are external I/O and out of scope (spec section 1).
none models the refusal return value -1: no summary is produced. -/
noncomputable def mainPipeline (sentTok wordTok : String → List String)
    (isal : String → Bool) (vocab : List String) (cr : ℚ) (text : String) : Option String :=
  if cr < 0 ∨ 1 < cr then none
  else
    let src := pyStrip text
    if src = emptyString then none
    else
      let sentences := sentTok src
      if sentences.length < 2 then none
      else
        some (generate_summary sentences
          (textrank (vectorize_sentences wordTok isal sentences vocab)) cr)

/-- Inserting x permutes x onto the front of the list. -/
theorem insertBy_perm {α : Type} (le : α → α → Prop) [DecidableRel le] (x : α) :
    ∀ l : List α, (insertBy le x l).Perm (x :: l) := by
  intro l
  induction l with
  | nil => simp [insertBy]
  | cons y l ih =>
    by_cases h : le x y
    · simp [insertBy, h]
    · simp only [insertBy, if_neg h]
      exact (ih.cons y).trans (List.Perm.swap x y l)

/-- sortBy permutes its input list. -/
theorem sortBy_perm {α : Type} (le : α → α → Prop) [DecidableRel le] :
    ∀ l : List α, (sortBy le l).Perm l := by
  intro l
  induction l with
  | nil => simp [sortBy]
  | cons x l ih =>
    exact (insertBy_perm le x (sortBy le l)).trans (ih.cons x)

/-- sortBy preserves length. -/
theorem sortBy_length {α : Type} (le : α → α → Prop) [DecidableRel le] (l : List α) :
    (sortBy le l).length = l.length :=
  (sortBy_perm le l).length_eq

/-- Membership in an insertion. -/
theorem mem_insertBy {α : Type} (le : α → α → Prop) [DecidableRel le] (x a : α)
    (l : List α) : a ∈ insertBy le x l ↔ a = x ∨ a ∈ l := by
  rw [(insertBy_perm le x l).mem_iff, List.mem_cons]

/-- Membership in the sorted list. -/
theorem mem_sortBy {α : Type} (le : α → α → Prop) [DecidableRel le] (a : α)
    (l : List α) : a ∈ sortBy le l ↔ a ∈ l :=
  (sortBy_perm le l).mem_iff

/-- Insertion preserves pairwise order for a total transitive relation. -/
theorem insertBy_pairwise {α : Type} {le : α → α → Prop} [DecidableRel le]
    (tot : ∀ a b, le a b ∨ le b a) (tr : ∀ {a b c}, le a b → le b c → le a c)
    (x : α) : ∀ {l : List α}, l.Pairwise le → (insertBy le x l).Pairwise le := by
  intro l
  induction l with
  | nil => intro _; simp [insertBy]
  | cons y l ih =>
    intro hp
    rcases List.pairwise_cons.1 hp with ⟨hy, hl⟩
    by_cases h : le x y
    · simp only [insertBy, if_pos h]
      refine List.pairwise_cons.2 ⟨?_, hp⟩
      intro z hz
      rcases List.mem_cons.1 hz with rfl | hz
      · exact h
      · exact tr h (hy z hz)
    · simp only [insertBy, if_neg h]
      refine List.pairwise_cons.2 ⟨?_, ih hl⟩
      intro z hz
      rcases (mem_insertBy le x z l).1 hz with rfl | hz
      · rcases tot z y with h1 | h1
        · exact absurd h1 h
        · exact h1
      · exact hy z hz

/-- sortBy sorts with respect to a total transitive relation. -/
theorem sortBy_pairwise {α : Type} {le : α → α → Prop} [DecidableRel le]
    (tot : ∀ a b, le a b ∨ le b a) (tr : ∀ {a b c}, le a b → le b c → le a c) :
    ∀ l : List α, (sortBy le l).Pairwise le := by
  intro l
  induction l with
  | nil => simp [sortBy]
  | cons x l ih =>
    show (insertBy le x (sortBy le l)).Pairwise le
    exact insertBy_pairwise tot tr x ih

/-- Stability consequence for the descending score sort: inserting an
element whose index is below every index of an already rank-ordered
list keeps the list rank-ordered (ties resolve to the earlier index). -/
theorem insertBy_rank (x : ℕ × ℝ) :
    ∀ {l : List (ℕ × ℝ)}, l.Pairwise rankRel → (∀ y ∈ l, x.1 < y.1) →
      (insertBy scoreGe x l).Pairwise rankRel := by
  intro l
  induction l with
  | nil => intro _ _; simp [insertBy]
  | cons y l ih =>
    intro hp hx
    rcases List.pairwise_cons.1 hp with ⟨hy, hl⟩
    by_cases h : scoreGe x y
    · have hle : y.2 ≤ x.2 := h
      simp only [insertBy, if_pos h]
      refine List.pairwise_cons.2 ⟨?_, hp⟩
      intro z hz
      rcases List.mem_cons.1 hz with rfl | hz
      · rcases lt_or_eq_of_le hle with h1 | h1
        · exact Or.inl h1
        · exact Or.inr ⟨h1.symm, hx z (List.mem_cons_self z l)⟩
      · rcases hy z hz with h2 | h2
        · exact Or.inl (lt_of_lt_of_le h2 hle)
        · rcases lt_or_eq_of_le hle with h1 | h1
          · refine Or.inl ?_
            rw [← h2.1]
            exact h1
          · exact Or.inr ⟨h1.symm.trans h2.1, hx z (List.mem_cons_of_mem y hz)⟩
    · have hlt : x.2 < y.2 := not_le.1 h
      simp only [insertBy, if_neg h]
      refine List.pairwise_cons.2
        ⟨?_, ih hl (fun z hz => hx z (List.mem_cons_of_mem y hz))⟩
      intro z hz
      rcases (mem_insertBy scoreGe x z l).1 hz with rfl | hz
      · exact Or.inl hlt
      · exact hy z hz

/-- Python stable descending sort of a list whose indices strictly
ascend produces a rank-ordered list: scores descend, and equal scores
keep ascending original indices. -/
theorem sortBy_rank :
    ∀ {l : List (ℕ × ℝ)}, l.Pairwise idxLt → (sortBy scoreGe l).Pairwise rankRel := by
  intro l
  induction l with
  | nil => intro _; simp [sortBy]
  | cons x l ih =>
    intro hp
    rcases List.pairwise_cons.1 hp with ⟨hx, hl⟩
    show (insertBy scoreGe x (sortBy scoreGe l)).Pairwise rankRel
    exact insertBy_rank x (ih hl)
      (fun y hy => hx y ((mem_sortBy scoreGe y l).1 hy))

/-- Bridge: wherever both vectors have nonzero norm, the total cosine
distance used in the textrank embedding is exactly the value scipy
returns. -/
theorem spatialCosineDist_eq_some (u v : List ℕ) (hu : dot u u ≠ 0) (hv : dot v v ≠ 0) :
    spatialCosineDist u v = some (cosineDist u v) := by
  unfold spatialCosineDist cosineDist
  rw [if_neg (Nat.mul_ne_zero hu hv)]

/-- Folding additions guarded by an index-skip equals the starting value
plus the sum of the non-skipped terms. -/
theorem foldl_ite_add (f : ℕ → ℝ) (i : ℕ) :
    ∀ (l : List ℕ) (a : ℝ),
      l.foldl (fun acc j => if i = j then acc else acc + f j) a
        = a + (l.map fun j => if i = j then 0 else f j).sum := by
  intro l
  induction l with
  | nil => intro a; simp
  | cons j l ih =>
    intro a
    by_cases h : i = j
    · simp only [List.foldl_cons, if_pos h, List.map_cons, List.sum_cons]
      rw [ih]
      simp [h]
    · simp only [List.foldl_cons, if_neg h, List.map_cons, List.sum_cons]
      rw [ih]
      ring

/-- Sum over List.range equals the Finset.range sum. -/
theorem range_map_sum (g : ℕ → ℝ) :
    ∀ n : ℕ, ((List.range n).map g).sum = ∑ j ∈ Finset.range n, g j := by
  intro n
  induction n with
  | zero => simp
  | succ n ih =>
    rw [List.range_succ, List.map_append, List.sum_append, Finset.sum_range_succ, ih]
    simp

/-- The accumulated similarity of row i is the sum of the pairwise
similarities over all indices j different from i; the diagonal term is
skipped by the i == j continue. -/
theorem centrality_raw_eq_sum (vecs : List (List ℕ)) (i : ℕ) :
    centrality_raw vecs i
      = ∑ j ∈ (Finset.range vecs.length).erase i,
          (1 - cosineDist (vecs.getD i []) (vecs.getD j [])) := by
  unfold centrality_raw
  rw [foldl_ite_add, zero_add, range_map_sum]
  have hz : (fun j => if i = j then (0 : ℝ)
      else 1 - cosineDist (vecs.getD i []) (vecs.getD j [])) i = 0 := by simp
  rw [← Finset.sum_erase (Finset.range vecs.length) hz]
  refine Finset.sum_congr rfl (fun j hj => ?_)
  exact if_neg (fun he => (Finset.mem_erase.1 hj).1 he.symm)

/-- Length of the pre-sort score list. -/
theorem average_similarities_length (vecs : List (List ℕ)) :
    (average_similarities vecs).length = vecs.length := by
  simp [average_similarities]

/-- textrank returns one entry per input vector. -/
theorem textrank_length (vecs : List (List ℕ)) :
    (textrank vecs).length = vecs.length := by
  rw [textrank, sortBy_length, average_similarities_length]

/-- The pre-sort score list carries strictly ascending indices. -/
theorem average_similarities_pairwise (vecs : List (List ℕ)) :
    (average_similarities vecs).Pairwise idxLt := by
  unfold average_similarities
  rw [List.pairwise_map]
  exact (List.pairwise_lt_range vecs.length).imp (fun h => h)

/-- Membership characterization of the pre-sort score list. -/
theorem mem_average_similarities (vecs : List (List ℕ)) (i : ℕ) (s : ℝ) :
    (i, s) ∈ average_similarities vecs ↔
      i < vecs.length ∧ s = centrality_raw vecs i / ((vecs.length : ℝ) - 1) := by
  unfold average_similarities
  rw [List.mem_map]
  constructor
  · rintro ⟨j, hj, he⟩
    rw [Prod.mk.injEq] at he
    rcases he with ⟨rfl, rfl⟩
    exact ⟨List.mem_range.1 hj, rfl⟩
  · rintro ⟨hi, rfl⟩
    exact ⟨i, List.mem_range.2 hi, rfl⟩

/-- Sorting does not change the entries of the ranked list. -/
theorem mem_textrank (vecs : List (List ℕ)) (p : ℕ × ℝ) :
    p ∈ textrank vecs ↔ p ∈ average_similarities vecs :=
  mem_sortBy scoreGe p (average_similarities vecs)

/-- The indices of the ranked list are a permutation of range n. -/
theorem textrank_fst_perm (vecs : List (List ℕ)) :
    ((textrank vecs).map Prod.fst).Perm (List.range vecs.length) := by
  have he : (average_similarities vecs).map Prod.fst = List.range vecs.length := by
    simp [average_similarities, List.map_map, Function.comp_def]
  refine (((sortBy_perm scoreGe (average_similarities vecs)).map Prod.fst).trans ?_)
  rw [he]

/-- The ranked index list is duplicate-free. -/
theorem textrank_fst_nodup (vecs : List (List ℕ)) :
    ((textrank vecs).map Prod.fst).Nodup :=
  (textrank_fst_perm vecs).nodup_iff.2 (List.nodup_range vecs.length)

/-- How many entries the assembler slice keeps: the floor of
len * (1 - cr), for a compression ratio within bounds. -/
theorem sentences_to_keep_length (ranked : List (ℕ × ℝ)) (cr : ℚ)
    (h0 : 0 ≤ cr) (h1 : cr ≤ 1) :
    ((sentences_to_keep ranked cr).length : ℤ) = ⌊(ranked.length : ℚ) * (1 - cr)⌋ := by
  have hq : 0 ≤ (ranked.length : ℚ) * (1 - cr) :=
    mul_nonneg (by positivity) (by linarith)
  unfold sentences_to_keep
  rw [sortBy_length, List.length_take]
  have hpy : pyInt ((ranked.length : ℚ) * (1 - cr)) = ⌊(ranked.length : ℚ) * (1 - cr)⌋ := by
    unfold pyInt
    rw [if_neg (not_lt.2 hq)]
  rw [hpy]
  have hfl0 : 0 ≤ ⌊(ranked.length : ℚ) * (1 - cr)⌋ := Int.floor_nonneg.2 hq
  have hle : ⌊(ranked.length : ℚ) * (1 - cr)⌋ ≤ (ranked.length : ℤ) := by
    have hb : (ranked.length : ℚ) * (1 - cr) ≤ (ranked.length : ℚ) :=
      mul_le_of_le_one_right (by positivity) (by linarith)
    calc ⌊(ranked.length : ℚ) * (1 - cr)⌋ ≤ ⌊(ranked.length : ℚ)⌋ := Int.floor_le_floor hb
    _ = (ranked.length : ℤ) := Int.floor_natCast ranked.length
  have htn : (⌊(ranked.length : ℚ) * (1 - cr)⌋).toNat ≤ ranked.length := by omega
  rw [min_eq_left htn]
  omega

/-- Slicing and re-sorting keeps the kept index list duplicate-free. -/
theorem sentences_to_keep_fst_nodup (ranked : List (ℕ × ℝ)) (cr : ℚ)
    (h : (ranked.map Prod.fst).Nodup) :
    ((sentences_to_keep ranked cr).map Prod.fst).Nodup := by
  unfold sentences_to_keep
  refine ((sortBy_perm idxLe _).map Prod.fst).nodup_iff.2 ?_
  rw [List.map_take]
  exact h.sublist (List.take_sublist _ _)

/-- The kept entries carry strictly ascending original indices. -/
theorem sentences_to_keep_pairwise (ranked : List (ℕ × ℝ)) (cr : ℚ)
    (h : (ranked.map Prod.fst).Nodup) :
    (sentences_to_keep ranked cr).Pairwise idxLt := by
  have hle : (sentences_to_keep ranked cr).Pairwise idxLe := by
    unfold sentences_to_keep
    exact sortBy_pairwise (fun (a b : ℕ × ℝ) => Nat.le_total a.1 b.1)
      (fun hab hbc => Nat.le_trans hab hbc) _
  have hne : (sentences_to_keep ranked cr).Pairwise (fun a b => a.1 ≠ b.1) :=
    List.pairwise_map.mp (sentences_to_keep_fst_nodup ranked cr h)
  exact (hle.and hne).imp (fun hab => lt_of_le_of_ne hab.1 hab.2)

/-- Folding two pointwise-equal step functions gives equal results. -/
theorem foldl_congr_fn {α β : Type} (l : List β) (f g : α → β → α) (a : α)
    (h : ∀ acc b, b ∈ l → f acc b = g acc b) : l.foldl f a = l.foldl g a := by
  induction l generalizing a with
  | nil => rfl
  | cons x l ih =>
    simp only [List.foldl_cons]
    rw [h a x (List.mem_cons_self x l)]
    exact ih _ (fun acc b hb => h acc b (List.mem_cons_of_mem x hb))

/-- One tally step on a vector that is a map over a duplicate-free
vocabulary increments exactly the slot of the tallied word. -/
theorem tally_map (w : String) :
    ∀ (vocab : List String) (f : String → ℕ), vocab.Nodup →
      tally w vocab (vocab.map f)
        = vocab.map (fun u => if w = u then f u + 1 else f u) := by
  intro vocab
  induction vocab with
  | nil => intro f _; rfl
  | cons u us ih =>
    intro f hnd
    rcases List.nodup_cons.1 hnd with ⟨hu, hus⟩
    simp only [List.map_cons, tally]
    by_cases h : w = u
    · rw [if_pos h, if_pos h]
      congr 1
      refine List.map_congr_left (fun x hx => ?_)
      rw [if_neg (fun hwx => ne_of_mem_of_not_mem hx hu (hwx.symm.trans h))]
    · rw [if_neg h, if_neg h]
      congr 1
      exact ih f hus

/-- With a duplicate-free vocabulary, the tally loop computes for each
vocabulary word its number of occurrences among the sentence tokens. -/
theorem sentence_vector_count (vocab : List String) (hnd : vocab.Nodup) :
    ∀ ws : List String, sentence_vector vocab ws = vocab.map fun u => ws.count u := by
  have key : ∀ (ws : List String) (f : String → ℕ),
      ws.foldl (fun vec w => tally w vocab vec) (vocab.map f)
        = vocab.map (fun u => f u + ws.count u) := by
    intro ws
    induction ws with
    | nil => intro f; simp
    | cons w ws ih =>
      intro f
      simp only [List.foldl_cons]
      rw [tally_map w vocab f hnd, ih]
      refine List.map_congr_left (fun u hu => ?_)
      by_cases h : w = u
      · subst h
        rw [if_pos rfl, List.count_cons_self]
        omega
      · rw [if_neg h, List.count_cons]
        have hbf : (w == u) = false := beq_eq_false_iff_ne.mpr h
        rw [hbf]
        simp
  intro ws
  have hk := key ws (fun _ => 0)
  simpa [sentence_vector] using hk

/-- vectorize_sentences in closed count form. -/
theorem vectorize_count (wordTok : String → List String) (isal : String → Bool)
    (sentences vocab : List String) (hnd : vocab.Nodup) :
    vectorize_sentences wordTok isal sentences vocab
      = sentences.map fun s => vocab.map fun u => ((wordTok s).filter isal).count u := by
  unfold vectorize_sentences
  refine List.map_congr_left (fun s _ => ?_)
  exact sentence_vector_count vocab hnd _

/-- Dot product of two count vectors over the same vocabulary list. -/
theorem dot_map_map (v : List String) (f g : String → ℕ) :
    dot (v.map f) (v.map g) = (v.map fun w => f w * g w).sum := by
  induction v with
  | nil => rfl
  | cons w v ih =>
    unfold dot at ih ⊢
    simp only [List.map_cons, List.zipWith_cons_cons, List.sum_cons, ih]

/-- Dot products are invariant under permuting the vocabulary order. -/
theorem count_dot_perm (v1 v2 : List String) (hp : v1.Perm v2) (f g : String → ℕ) :
    dot (v1.map f) (v1.map g) = dot (v2.map f) (v2.map g) := by
  rw [dot_map_map, dot_map_map]
  exact (hp.map fun w => f w * g w).sum_eq

/-- Degenerate lookup: against the empty vector the embedded cosine
distance is the constant 1 (zero dot product over zero denominator). -/
theorem cosineDist_nil_left (y : List ℕ) : cosineDist [] y = 1 := by
  unfold cosineDist dot
  simp

/-- Cosine distances between count vectors do not depend on the order in
which the vocabulary was listed. -/
theorem cosineDist_vocab_invariant (v1 v2 : List String) (hp : v1.Perm v2)
    (ws wt : List String) :
    cosineDist (v1.map fun u => ws.count u) (v1.map fun u => wt.count u)
      = cosineDist (v2.map fun u => ws.count u) (v2.map fun u => wt.count u) := by
  unfold cosineDist
  rw [count_dot_perm v1 v2 hp, count_dot_perm v1 v2 hp, count_dot_perm v1 v2 hp]

/-- Two admissible unique-word lists for the same text are permutations
of each other. -/
theorem vocab_perm (wordTok : String → List String) (isal : String → Bool) (text : String)
    (v1 v2 : List String) (h1 : isUniqueWordList wordTok isal text v1)
    (h2 : isUniqueWordList wordTok isal text v2) : v1.Perm v2 := by
  rcases h1 with ⟨hn1, hf1⟩
  rcases h2 with ⟨hn2, hf2⟩
  rw [List.perm_ext_iff_of_nodup hn1 hn2]
  intro a
  rw [← List.mem_toFinset, ← List.mem_toFinset, hf1, hf2]

/-- Row accumulations are invariant under permuting the vocabulary. -/
theorem centrality_raw_vocab_invariant (v1 v2 : List String) (hp : v1.Perm v2)
    (tokss : List (List String)) (i : ℕ) :
    centrality_raw (tokss.map fun ts => v1.map fun u => ts.count u) i
      = centrality_raw (tokss.map fun ts => v2.map fun u => ts.count u) i := by
  unfold centrality_raw
  simp only [List.length_map]
  refine foldl_congr_fn _ _ _ _ (fun acc j hj => ?_)
  by_cases h : i = j
  · rw [if_pos h, if_pos h]
  · rw [if_neg h, if_neg h]
    have hj2 : j < tokss.length := List.mem_range.1 hj
    by_cases hi : i < tokss.length
    · rw [List.getD_eq_getElem _ _ (by simpa using hi),
        List.getD_eq_getElem _ _ (by simpa using hj2),
        List.getD_eq_getElem _ _ (by simpa using hi),
        List.getD_eq_getElem _ _ (by simpa using hj2)]
      simp only [List.getElem_map]
      rw [cosineDist_vocab_invariant v1 v2 hp]
    · have hge : (tokss.map fun ts => v1.map fun u => ts.count u).length ≤ i := by
        simpa using Nat.le_of_not_lt hi
      have hge2 : (tokss.map fun ts => v2.map fun u => ts.count u).length ≤ i := by
        simpa using Nat.le_of_not_lt hi
      rw [List.getD_eq_default _ _ hge, List.getD_eq_default _ _ hge2,
        cosineDist_nil_left, cosineDist_nil_left]

/-- The ranked list produced by textrank does not depend on the order in
which the unique-word set was listed, only on its contents. -/
theorem textrank_vocab_invariant (wordTok : String → List String) (isal : String → Bool)
    (sentences : List String) (v1 v2 : List String)
    (hn1 : v1.Nodup) (hn2 : v2.Nodup) (hp : v1.Perm v2) :
    textrank (vectorize_sentences wordTok isal sentences v1)
      = textrank (vectorize_sentences wordTok isal sentences v2) := by
  unfold textrank
  rw [vectorize_count wordTok isal sentences v1 hn1,
    vectorize_count wordTok isal sentences v2 hn2]
  have hf : ∀ vv : List String,
      (sentences.map fun s => vv.map fun u => ((wordTok s).filter isal).count u)
        = ((sentences.map fun s => (wordTok s).filter isal).map
            fun ts => vv.map fun u => ts.count u) := by
    intro vv
    rw [List.map_map]
    rfl
  rw [hf v1, hf v2]
  congr 1
  unfold average_similarities
  simp only [List.length_map]
  refine List.map_congr_left (fun i _ => ?_)
  rw [centrality_raw_vocab_invariant v1 v2 hp]

/-- Folding the assembler step over the full enumerated index list is
the same as folding the sentences themselves. -/
theorem fold_enum_join (g : ℕ → ℝ) :
    ∀ (l : List String) (a : String),
      ((List.range l.length).map fun i => (i, g i)).foldl
          (fun acc p => acc ++ l.getD p.1 emptyString ++ " ") a
        = l.foldl (fun acc s => acc ++ s ++ " ") a := by
  intro l
  induction l using List.reverseRecOn with
  | nil => intro a; rfl
  | append_singleton xs x ih =>
    intro a
    rw [List.length_append, List.length_singleton, List.range_succ, List.map_append,
      List.foldl_append, List.foldl_append]
    simp only [List.map_cons, List.map_nil, List.foldl_cons, List.foldl_nil]
    have hfold :
        ((List.range xs.length).map fun i => (i, g i)).foldl
            (fun acc p => acc ++ (xs ++ [x]).getD p.1 emptyString ++ " ") a
          = ((List.range xs.length).map fun i => (i, g i)).foldl
            (fun acc p => acc ++ xs.getD p.1 emptyString ++ " ") a := by
      refine foldl_congr_fn _ _ _ _ (fun acc p hp => ?_)
      rcases List.mem_map.1 hp with ⟨i, hi, rfl⟩
      rw [List.getD_append _ _ _ _ (List.mem_range.1 hi)]
    rw [hfold, ih a]
    have hx : (xs ++ [x]).getD xs.length emptyString = x := by
      rw [List.getD_append_right _ _ _ _ (le_refl xs.length)]
      simp [List.getD_cons_zero]
    rw [hx]

/-- With compression ratio zero the assembler keeps the whole ranked
list, and re-sorting by index restores exactly the pre-sort score list. -/
theorem sentences_to_keep_zero (vecs : List (List ℕ)) :
    sentences_to_keep (textrank vecs) 0 = average_similarities vecs := by
  unfold sentences_to_keep
  have hlen : ((textrank vecs).length : ℚ) * (1 - 0) = ((textrank vecs).length : ℚ) := by
    ring
  rw [hlen]
  have hpy : pyInt ((textrank vecs).length : ℚ) = ((textrank vecs).length : ℤ) := by
    unfold pyInt
    rw [if_neg (not_lt.2 (by positivity))]
    exact Int.floor_natCast _
  rw [hpy, Int.toNat_natCast, List.take_length]
  have hperm : (sortBy idxLe (textrank vecs)).Perm (average_similarities vecs) :=
    (sortBy_perm idxLe (textrank vecs)).trans (sortBy_perm scoreGe _)
  have hs1 : (sortBy idxLe (textrank vecs)).Pairwise idxLt := by
    have hle : (sortBy idxLe (textrank vecs)).Pairwise idxLe :=
      sortBy_pairwise (fun (a b : ℕ × ℝ) => Nat.le_total a.1 b.1)
        (fun hab hbc => Nat.le_trans hab hbc) _
    have hnd : ((sortBy idxLe (textrank vecs)).map Prod.fst).Nodup :=
      ((sortBy_perm idxLe _).map Prod.fst).nodup_iff.2 (textrank_fst_nodup vecs)
    exact (hle.and (List.pairwise_map.mp hnd)).imp (fun h => lt_of_le_of_ne h.1 h.2)
  haveI : IsAntisymm (ℕ × ℝ) idxLt :=
    ⟨fun a b h1 h2 => absurd (Nat.lt_trans h1 h2) (Nat.lt_irrefl _)⟩
  exact List.eq_of_perm_of_sorted hperm hs1 (average_similarities_pairwise vecs)

/-- C1: the claim says textrank treats cosine similarity against a zero
vector as exactly 0.0. The code instead calls scipy cosine, whose value
on a zero vector is the undefined 0/0 float (NaN, modelled none), for
the zero vector against every other sentence and in both argument
orders; no fallback to 0.0 exists anywhere in textrank. -/
theorem zero_vector_cosine_undefined :
    spatialCosineDist [0, 0] [1, 0] = none ∧ spatialCosineDist [0, 0] [0, 1] = none ∧
      spatialCosineDist [1, 0] [0, 0] = none ∧ spatialCosineDist [0, 1] [0, 0] = none := by
  refine ⟨?_, ?_, ?_, ?_⟩ <;> rfl

/-- C2: for a document of n at least 2 sentences and a compression ratio
within [0, 1], generate_summary keeps exactly floor(n * (1 - cr))
sentences: the slice bound int(len * (1 - cr)) is the mathematical
floor of the exact product. -/
theorem summary_selects_floor_count (wordTok : String → List String)
    (isal : String → Bool) (sentences vocab : List String) (cr : ℚ)
    (h2 : 2 ≤ sentences.length) (h0 : 0 ≤ cr) (h1 : cr ≤ 1) :
    ((sentences_to_keep
        (textrank (vectorize_sentences wordTok isal sentences vocab)) cr).length : ℤ)
      = ⌊(sentences.length : ℚ) * (1 - cr)⌋ := by
  have hv : (vectorize_sentences wordTok isal sentences vocab).length = sentences.length := by
    simp [vectorize_sentences]
  rw [sentences_to_keep_length _ _ h0 h1, textrank_length, hv]

/-- Witness for C2 at a concrete two-sentence document and ratio 0. -/
theorem summary_selects_floor_count_witness :
    2 ≤ (["a", "b"] : List String).length ∧ (0 : ℚ) ≤ 0 ∧ (0 : ℚ) ≤ 1 ∧
      ((sentences_to_keep (textrank (vectorize_sentences (fun _ => [])
          (fun _ => true) ["a", "b"] [])) 0).length : ℤ)
        = ⌊((["a", "b"] : List String).length : ℚ) * (1 - 0)⌋ :=
  ⟨by decide, by decide, by decide,
    summary_selects_floor_count (fun _ => []) (fun _ => true) ["a", "b"] [] 0
      (by decide) (by decide) (by decide)⟩

/-- C3: for at least two sentence vectors, all of nonzero norm (the
regime in which scipy cosine is defined; the zero-vector regime is the
subject of C1), the ranked list is ordered by score descending with
ties in ascending original-index order. -/
theorem ranked_list_sorted (vecs : List (List ℕ)) (h2 : 2 ≤ vecs.length)
    (hnz : ∀ v ∈ vecs, dot v v ≠ 0) :
    (textrank vecs).Pairwise
      (fun a b => b.2 < a.2 ∨ (a.2 = b.2 ∧ a.1 < b.1)) :=
  sortBy_rank (average_similarities_pairwise vecs)

/-- Witness for C3 at two identical one-word sentence vectors. -/
theorem ranked_list_sorted_witness :
    2 ≤ ([[1], [1]] : List (List ℕ)).length ∧
      (∀ v ∈ ([[1], [1]] : List (List ℕ)), dot v v ≠ 0) ∧
      (textrank [[1], [1]]).Pairwise
        (fun a b => b.2 < a.2 ∨ (a.2 = b.2 ∧ a.1 < b.1)) :=
  ⟨by decide, by decide, ranked_list_sorted [[1], [1]] (by decide) (by decide)⟩

/-- C4: in the same nonzero-norm regime, the score attached to sentence
index i in the ranked list is the sum of the similarities to every other
index j, the diagonal term excluded, divided by n - 1. -/
theorem centrality_is_mean (vecs : List (List ℕ)) (h2 : 2 ≤ vecs.length)
    (hnz : ∀ v ∈ vecs, dot v v ≠ 0) (i : ℕ) (hi : i < vecs.length) :
    ∀ s : ℝ, (i, s) ∈ textrank vecs ↔
      s = (∑ j ∈ (Finset.range vecs.length).erase i,
            (1 - cosineDist (vecs.getD i []) (vecs.getD j [])))
          / ((vecs.length : ℝ) - 1) := by
  intro s
  rw [mem_textrank, mem_average_similarities, centrality_raw_eq_sum]
  constructor
  · rintro ⟨_, rfl⟩
    rfl
  · rintro rfl
    exact ⟨hi, rfl⟩

/-- Witness for C4 at two identical one-word sentence vectors, index 0. -/
theorem centrality_is_mean_witness :
    2 ≤ ([[1], [1]] : List (List ℕ)).length ∧
      (∀ v ∈ ([[1], [1]] : List (List ℕ)), dot v v ≠ 0) ∧
      0 < ([[1], [1]] : List (List ℕ)).length ∧
      (∀ s : ℝ, (0, s) ∈ textrank [[1], [1]] ↔
        s = (∑ j ∈ (Finset.range ([[1], [1]] : List (List ℕ)).length).erase 0,
              (1 - cosineDist (([[1], [1]] : List (List ℕ)).getD 0 [])
                (([[1], [1]] : List (List ℕ)).getD j [])))
            / ((([[1], [1]] : List (List ℕ)).length : ℝ) - 1)) :=
  ⟨by decide, by decide, by decide,
    centrality_is_mean [[1], [1]] (by decide) (by decide) 0 (by decide)⟩

/-- C5: the whole pipeline is deterministic. All stages are functions of
the input text and ratio except the unique-word set ordering, which
Python set iteration leaves unspecified; any two admissible orderings of
that set produce identical summaries, so repeated runs on the same text
and ratio emit byte-identical output. -/
theorem pipeline_deterministic (sentTok wordTok : String → List String)
    (isal : String → Bool) (v1 v2 : List String) (cr : ℚ) (text : String)
    (h1 : isUniqueWordList wordTok isal (pyStrip text) v1)
    (h2 : isUniqueWordList wordTok isal (pyStrip text) v2) :
    mainPipeline sentTok wordTok isal v1 cr text
      = mainPipeline sentTok wordTok isal v2 cr text := by
  have hp := vocab_perm wordTok isal (pyStrip text) v1 v2 h1 h2
  have key := textrank_vocab_invariant wordTok isal (sentTok (pyStrip text)) v1 v2
    h1.1 h2.1 hp
  unfold mainPipeline
  simp only [key]

/-- Witness for C5 with the two orderings of a two-word vocabulary. -/
theorem pipeline_deterministic_witness :
    isUniqueWordList (fun _ => ["a", "b"]) (fun _ => true) (pyStrip "t") ["a", "b"] ∧
      isUniqueWordList (fun _ => ["a", "b"]) (fun _ => true) (pyStrip "t") ["b", "a"] ∧
      mainPipeline (fun _ => ["a", "b"]) (fun _ => ["a", "b"]) (fun _ => true)
          ["a", "b"] (1/2) "t"
        = mainPipeline (fun _ => ["a", "b"]) (fun _ => ["a", "b"]) (fun _ => true)
          ["b", "a"] (1/2) "t" :=
  ⟨⟨by decide, by decide⟩, ⟨by decide, by decide⟩,
    pipeline_deterministic (fun _ => ["a", "b"]) (fun _ => ["a", "b"]) (fun _ => true)
      ["a", "b"] ["b", "a"] (1/2) "t" ⟨by decide, by decide⟩ ⟨by decide, by decide⟩⟩

/-- C6: at compression ratio 0 the summary is the whole document: every
sentence, in original order, space-joined and stripped, independent of
the ranking; at compression ratio 1 the summary is the empty string,
returned as an ordinary value. -/
theorem boundary_ratio_summaries (wordTok : String → List String) (isal : String → Bool)
    (sentences vocab : List String) (h2 : 2 ≤ sentences.length) :
    generate_summary sentences
        (textrank (vectorize_sentences wordTok isal sentences vocab)) 0
      = pyStrip (sentences.foldl (fun acc s => acc ++ s ++ " ") emptyString) ∧
    generate_summary sentences
        (textrank (vectorize_sentences wordTok isal sentences vocab)) 1
      = emptyString := by
  constructor
  · unfold generate_summary
    rw [sentences_to_keep_zero]
    congr 1
    have hlen : (vectorize_sentences wordTok isal sentences vocab).length
        = sentences.length := by
      simp [vectorize_sentences]
    unfold average_similarities
    rw [hlen]
    exact fold_enum_join _ sentences emptyString
  · unfold generate_summary sentences_to_keep
    have h10 : ((textrank (vectorize_sentences wordTok isal sentences
        vocab)).length : ℚ) * (1 - 1) = 0 := by ring
    rw [h10]
    have hz : pyInt 0 = 0 := by
      unfold pyInt
      rw [if_neg (lt_irrefl 0)]
      exact Int.floor_zero
    rw [hz]
    rfl

/-- Witness for C6 at a concrete two-sentence document. -/
theorem boundary_ratio_summaries_witness :
    2 ≤ (["a", "b"] : List String).length ∧
      (generate_summary ["a", "b"] (textrank (vectorize_sentences (fun _ => [])
          (fun _ => true) ["a", "b"] [])) 0
        = pyStrip ((["a", "b"] : List String).foldl
            (fun acc s => acc ++ s ++ " ") emptyString) ∧
       generate_summary ["a", "b"] (textrank (vectorize_sentences (fun _ => [])
          (fun _ => true) ["a", "b"] [])) 1
        = emptyString) :=
  ⟨by decide,
    boundary_ratio_summaries (fun _ => []) (fun _ => true) ["a", "b"] [] (by decide)⟩

/-- C7: for every ranked list coming out of textrank and every bounded
compression ratio, the kept entries carry strictly ascending original
indices, and the summary is their texts joined by single spaces in that
index order and stripped: output sentences appear in source order. -/
theorem summary_preserves_order (sentences : List String) (vecs : List (List ℕ))
    (cr : ℚ) (h0 : 0 ≤ cr) (h1 : cr ≤ 1) :
    (sentences_to_keep (textrank vecs) cr).Pairwise (fun a b => a.1 < b.1) ∧
      generate_summary sentences (textrank vecs) cr
        = pyStrip ((sentences_to_keep (textrank vecs) cr).foldl
            (fun acc p => acc ++ sentences.getD p.1 emptyString ++ " ") emptyString) :=
  ⟨sentences_to_keep_pairwise _ _ (textrank_fst_nodup vecs), rfl⟩

/-- Witness for C7 at a concrete document and ratio one. -/
theorem summary_preserves_order_witness :
    (0 : ℚ) ≤ 1 ∧ (1 : ℚ) ≤ 1 ∧
      ((sentences_to_keep (textrank [[1], [1]]) 1).Pairwise
          (fun a b => a.1 < b.1) ∧
        generate_summary ["a", "b"] (textrank [[1], [1]]) 1
          = pyStrip ((sentences_to_keep (textrank [[1], [1]]) 1).foldl
              (fun acc p => acc ++ (["a", "b"] : List String).getD p.1 emptyString ++ " ")
              emptyString)) :=
  ⟨by decide, by decide,
    summary_preserves_order ["a", "b"] [[1], [1]] 1 (by decide) (by decide)⟩

/-- C8: if the text is empty after stripping, or sentence tokenization
finds fewer than two sentences, the pipeline refuses: it returns none
before any vectorization or similarity work, and no summary is emitted. -/
theorem pipeline_refuses (sentTok wordTok : String → List String) (isal : String → Bool)
    (vocab : List String) (cr : ℚ) (text : String)
    (h : pyStrip text = emptyString ∨ (sentTok (pyStrip text)).length < 2) :
    mainPipeline sentTok wordTok isal vocab cr text = none := by
  unfold mainPipeline
  by_cases hc : cr < 0 ∨ 1 < cr
  · rw [if_pos hc]
  · rw [if_neg hc]
    rcases h with h | h
    · simp [h]
    · by_cases he : pyStrip text = emptyString
      · simp [he]
      · simp [he, h]

/-- Witness for C8 at whitespace-only input text. -/
theorem pipeline_refuses_witness :
    (pyStrip "  " = emptyString ∨
        (((fun _ => ["x"]) (pyStrip "  ") : List String)).length < 2) ∧
      mainPipeline (fun _ => ["x"]) (fun _ => []) (fun _ => true) [] 0 "  " = none :=
  ⟨Or.inl (by decide),
    pipeline_refuses (fun _ => ["x"]) (fun _ => []) (fun _ => true) [] 0 "  "
      (Or.inl (by decide))⟩

/-- C9: for a fixed document, raising the compression ratio never raises
the number of kept sentences. -/
theorem selection_count_antitone (wordTok : String → List String) (isal : String → Bool)
    (sentences vocab : List String) (r1 r2 : ℚ) (h2 : 2 ≤ sentences.length)
    (h0 : 0 ≤ r1) (h12 : r1 ≤ r2) (h1 : r2 ≤ 1) :
    (sentences_to_keep (textrank (vectorize_sentences wordTok isal sentences vocab))
        r2).length
      ≤ (sentences_to_keep (textrank (vectorize_sentences wordTok isal sentences vocab))
        r1).length := by
  have e1 := sentences_to_keep_length
    (textrank (vectorize_sentences wordTok isal sentences vocab)) r1 h0 (le_trans h12 h1)
  have e2 := sentences_to_keep_length
    (textrank (vectorize_sentences wordTok isal sentences vocab)) r2 (le_trans h0 h12) h1
  have hmono :
      ⌊((textrank (vectorize_sentences wordTok isal sentences vocab)).length : ℚ)
          * (1 - r2)⌋
        ≤ ⌊((textrank (vectorize_sentences wordTok isal sentences vocab)).length : ℚ)
          * (1 - r1)⌋ := by
    apply Int.floor_le_floor
    apply mul_le_mul_of_nonneg_left (by linarith) (by positivity)
  omega

/-- Witness for C9 at ratios 0 and 1 on a two-sentence document. -/
theorem selection_count_antitone_witness :
    2 ≤ (["a", "b"] : List String).length ∧ (0 : ℚ) ≤ 0 ∧ (0 : ℚ) ≤ 1 ∧ (1 : ℚ) ≤ 1 ∧
      (sentences_to_keep (textrank (vectorize_sentences (fun _ => [])
          (fun _ => true) ["a", "b"] [])) 1).length
        ≤ (sentences_to_keep (textrank (vectorize_sentences (fun _ => [])
          (fun _ => true) ["a", "b"] [])) 0).length :=
  ⟨by decide, by decide, by decide, by decide,
    selection_count_antitone (fun _ => []) (fun _ => true) ["a", "b"] [] 0 1
      (by decide) (by decide) (by decide) (by decide)⟩

/-- C10: the ranked list indices are a permutation of range n, and for
every compression ratio the kept index list is duplicate-free: top-K
selection always picks K distinct sentences. -/
theorem ranked_list_is_permutation (vecs : List (List ℕ)) (h2 : 2 ≤ vecs.length) :
    ((textrank vecs).map Prod.fst).Perm (List.range vecs.length) ∧
      ∀ cr : ℚ, ((sentences_to_keep (textrank vecs) cr).map Prod.fst).Nodup :=
  ⟨textrank_fst_perm vecs,
    fun cr => sentences_to_keep_fst_nodup _ cr (textrank_fst_nodup vecs)⟩

/-- Witness for C10 at two one-word sentence vectors. -/
theorem ranked_list_is_permutation_witness :
    2 ≤ ([[1], [1]] : List (List ℕ)).length ∧
      (((textrank [[1], [1]]).map Prod.fst).Perm
          (List.range ([[1], [1]] : List (List ℕ)).length) ∧
        ∀ cr : ℚ, ((sentences_to_keep (textrank [[1], [1]]) cr).map Prod.fst).Nodup) :=
  ⟨by decide, ranked_list_is_permutation [[1], [1]] (by decide)⟩
